import Mathlib

/-!
Verification of the YouTube-chatbot backend (main.py, youtube_utils.py).

Text is modelled as `List Char` (Python `str`), dictionaries keyed by the
integers `0 .. n-1` as Lean lists, machine floats as exact rationals
(the claims under check concern selection and control flow, not rounding),
and every fallible third-party call as an `Except`-valued field of an
environment record, so that exception propagation and the code's
try/except structure are explicit.
-/

namespace YtChat

/-! ## Python string primitives -/

/-- Python `str.strip()`: remove whitespace from both ends. -/
def pyStrip (s : List Char) : List Char :=
  ((s.dropWhile Char.isWhitespace).reverse.dropWhile Char.isWhitespace).reverse

/-- Python slice `s[start:stop]` for `0 ≤ start ≤ stop` (the only shape used
by the code under verification). -/
def pySlice (s : List Char) (start stop : Nat) : List Char :=
  (s.drop start).take (stop - start)

/-- Index of the first occurrence of `sep` in `s` (Python `str.find` for a
nonempty needle). -/
def findOcc (sep : List Char) : List Char → Option Nat
  | [] => if List.isPrefixOf sep [] then some 0 else none
  | c :: rest =>
    if List.isPrefixOf sep (c :: rest) then some 0
    else (findOcc sep rest).map (· + 1)

/-- Python `sep in s` (substring containment). -/
def hasSub (sep s : List Char) : Bool := (findOcc sep s).isSome

/-- Everything after the first occurrence of `sep` (used only when `sep`
occurs in `s`). -/
def afterFirstOcc (sep s : List Char) : List Char :=
  match findOcc sep s with
  | some i => s.drop (i + sep.length)
  | none => []

/-- Python `s.split(sep)[0]`: everything before the first occurrence of
`sep`, or all of `s` when `sep` does not occur. -/
def upToFirstOcc (sep s : List Char) : List Char :=
  match findOcc sep s with
  | some i => s.take i
  | none => s

/-- Python `s.split(sep)[1]` when `sep` occurs in `s`: the segment between
the end of the first occurrence and the next (non-overlapping) occurrence,
or the rest of the string when `sep` occurs only once. -/
def splitSecondPart (s sep : List Char) : List Char :=
  upToFirstOcc sep (afterFirstOcc sep s)

/-- Python `l[-n:]`: the last `n` elements. -/
def pyTakeLast (n : Nat) (l : List α) : List α := l.drop (l.length - n)

/-! ## Chunking (main.py, chunk_text)

The Python loop

  while start < text_len:
      end = start + chunk_size
      chunk = text[start:end]
      chunks.append(chunk.strip())
      if end >= text_len: break
      start = end - overlap

is embedded with explicit fuel: the loop does not terminate in Python when
overlap >= chunk_size (each claim about termination is then a theorem, not
an artifact of the embedding).  -/

/-- CHUNK_SIZE parameter of main.py. -/
def CHUNK_SIZE : Nat := 2000

/-- CHUNK_OVERLAP parameter of main.py. -/
def CHUNK_OVERLAP : Nat := 500

/-- TOP_K parameter of main.py. -/
def TOP_K : Nat := 50

/-- Body of the while loop of chunk_text, with fuel. Returns none when the
fuel runs out, i.e. when the Python loop would still be running. -/
def chunkLoop (text : List Char) (chunk_size overlap : Nat) : Nat → Nat → Option (List (List Char))
  | 0, _ => none
  | fuel + 1, start =>
    if start < text.length then
      let e := start + chunk_size
      let c := pyStrip (pySlice text start e)
      if text.length ≤ e then some [c]
      else
        match chunkLoop text chunk_size overlap fuel (e - overlap) with
        | some rest => some (c :: rest)
        | none => none
    else some []

/-- chunk_text of main.py. `text.length + 1` units of fuel are enough for
the loop whenever it terminates at all, since the start position is
strictly increasing. -/
def chunk_text (text : List Char) (chunk_size : Nat := CHUNK_SIZE)
    (overlap : Nat := CHUNK_OVERLAP) : Option (List (List Char)) :=
  if text.length ≤ chunk_size then some [text]
  else chunkLoop text chunk_size overlap (text.length + 1) 0

/-- Invariant of the chunking loop: with enough fuel and a start position
inside the text it produces the list of stripped fixed-size windows whose
i-th element starts at `start + i * (chunk_size - overlap)`; the last
window reaches the end of the text and every non-final window ends
strictly inside it. -/
theorem chunkLoop_spec (text : List Char) (c o : Nat) (ho : o < c) :
    ∀ fuel start, start < text.length → text.length ≤ start + fuel * (c - o) →
    ∃ L, chunkLoop text c o fuel start = some L ∧ L ≠ [] ∧
      (∀ j (hj : j < L.length),
        L.get ⟨j, hj⟩ =
          pyStrip (pySlice text (start + j * (c - o)) (start + j * (c - o) + c))) ∧
      text.length ≤ start + (L.length - 1) * (c - o) + c ∧
      (∀ j, j + 1 < L.length → start + j * (c - o) + c < text.length) := by
  intro fuel
  induction fuel with
  | zero =>
    intro start hs hf
    simp only [Nat.zero_mul, Nat.add_zero] at hf
    omega
  | succ fuel ih =>
    intro start hs hf
    by_cases hend : text.length ≤ start + c
    · refine ⟨[pyStrip (pySlice text start (start + c))], ?_, by simp, ?_, ?_, ?_⟩
      · simp [chunkLoop, hs, hend]
      · intro j hj
        simp only [List.length_singleton] at hj
        interval_cases j
        simp
      · simpa using hend
      · intro j hj
        simp at hj
    · have hstep : start + c - o = start + (c - o) := by omega
      have hs' : start + (c - o) < text.length := by omega
      have hf' : text.length ≤ start + (c - o) + fuel * (c - o) := by
        rw [Nat.succ_mul] at hf
        omega
      obtain ⟨rest, hrest, hne, hget, hlast, hnl⟩ := ih (start + (c - o)) hs' hf'
      refine ⟨pyStrip (pySlice text start (start + c)) :: rest, ?_, by simp, ?_, ?_, ?_⟩
      · simp only [chunkLoop, hs, if_true]
        have : ¬ text.length ≤ start + c := hend
        simp only [this, if_false]
        rw [hstep, hrest]
      · intro j hj
        cases j with
        | zero => simp
        | succ j =>
          simp only [List.length_cons] at hj
          have hj' : j < rest.length := by omega
          have := hget j hj'
          simp only [List.get_cons_succ]
          rw [this]
          congr 2 <;> · rw [Nat.succ_mul]; omega
      · have h1 : 1 ≤ rest.length := by
          cases rest with
          | nil => simp at hne
          | cons a l => simp
        obtain ⟨k, hk⟩ : ∃ k, rest.length = k + 1 := ⟨rest.length - 1, by omega⟩
        rw [hk] at hlast
        simp only [List.length_cons, hk]
        have : (k + 1 + 1 - 1) * (c - o) = k * (c - o) + (c - o) := by
          simp only [Nat.add_sub_cancel]
          rw [Nat.succ_mul]
        rw [this]
        simp only [Nat.add_sub_cancel] at hlast
        omega
      · intro j hj
        cases j with
        | zero => simpa using hend
        | succ j =>
          simp only [List.length_cons] at hj
          have := hnl j (by omega)
          rw [Nat.succ_mul]
          omega

/-- Claim C8: chunk_text terminates (returns a result within the supplied
fuel) for every input, provided overlap < chunk_size; the loop advances by
the positive amount chunk_size - overlap each iteration. -/
theorem chunk_text_terminates (c o : Nat) (ho : o < c) (text : List Char) :
    ∃ L, chunk_text text c o = some L := by
  unfold chunk_text
  by_cases hlen : text.length ≤ c
  · exact ⟨[text], by simp [hlen]⟩
  · simp only [hlen, if_false]
    have h0 : 0 < text.length := by omega
    have hf : text.length ≤ 0 + (text.length + 1) * (c - o) := by
      have h1 : 1 ≤ c - o := by omega
      have := Nat.mul_le_mul_left (text.length + 1) h1
      simp only [Nat.mul_one] at this
      omega
    obtain ⟨L, hL, -⟩ := chunkLoop_spec text c o ho (text.length + 1) 0 h0 hf
    exact ⟨L, hL⟩

/-- Witness for C8 at a concrete input. -/
theorem chunk_text_terminates_witness :
    ∃ L, chunk_text ['a', 'b', 'c'] 2 1 = some L :=
  chunk_text_terminates 2 1 (by decide) ['a', 'b', 'c']

/-- Claim C1: chunk_text slices the text into fixed-size character
windows.  A text of at most CHUNK_SIZE characters is returned whole as a
single chunk; otherwise the i-th chunk is the stripped slice of CHUNK_SIZE
characters starting at i * (CHUNK_SIZE - CHUNK_OVERLAP), consecutive
windows overlap by CHUNK_OVERLAP characters, and the windows cover every
character position of the text. -/
theorem chunk_text_fixed_windows (text : List Char) :
    (text.length ≤ CHUNK_SIZE → chunk_text text = some [text]) ∧
    (CHUNK_SIZE < text.length → ∃ L, chunk_text text = some L ∧
      (∀ i (hi : i < L.length),
        L.get ⟨i, hi⟩ =
          pyStrip (pySlice text (i * (CHUNK_SIZE - CHUNK_OVERLAP))
            (i * (CHUNK_SIZE - CHUNK_OVERLAP) + CHUNK_SIZE))) ∧
      (∀ i, i + 1 < L.length →
        (i * (CHUNK_SIZE - CHUNK_OVERLAP) + CHUNK_SIZE)
          - (i + 1) * (CHUNK_SIZE - CHUNK_OVERLAP) = CHUNK_OVERLAP) ∧
      (∀ k, k < text.length → ∃ i, i < L.length ∧
        i * (CHUNK_SIZE - CHUNK_OVERLAP) ≤ k ∧
        k < i * (CHUNK_SIZE - CHUNK_OVERLAP) + CHUNK_SIZE)) := by
  constructor
  · intro hle
    simp [chunk_text, hle]
  · intro hgt
    have ho : CHUNK_OVERLAP < CHUNK_SIZE := by decide
    have h0 : 0 < text.length := by
      have : (0 : Nat) < CHUNK_SIZE := by decide
      omega
    have hf : text.length ≤ 0 + (text.length + 1) * (CHUNK_SIZE - CHUNK_OVERLAP) := by
      have h1 : 1 ≤ CHUNK_SIZE - CHUNK_OVERLAP := by decide
      have := Nat.mul_le_mul_left (text.length + 1) h1
      simp only [Nat.mul_one] at this
      omega
    obtain ⟨L, hL, hne, hget, hlast, -⟩ :=
      chunkLoop_spec text CHUNK_SIZE CHUNK_OVERLAP ho (text.length + 1) 0 h0 hf
    have hrun : chunk_text text = some L := by
      unfold chunk_text
      simp only [Nat.not_le.mpr hgt, if_false]
      exact hL
    refine ⟨L, hrun, ?_, ?_, ?_⟩
    · intro i hi
      have := hget i hi
      simpa using this
    · intro i _
      show i * 1500 + 2000 - (i + 1) * 1500 = 500
      rw [Nat.succ_mul]
      omega
    · intro k hk
      have hlen1 : 1 ≤ L.length := by
        cases L with
        | nil => simp at hne
        | cons a l => simp
      simp only [Nat.zero_add] at hlast
      show ∃ i, i < L.length ∧ i * 1500 ≤ k ∧ k < i * 1500 + 2000
      have hlast' : text.length ≤ (L.length - 1) * 1500 + 2000 := hlast
      by_cases hdiv : k / 1500 < L.length
      · exact ⟨k / 1500, hdiv, by omega, by omega⟩
      · refine ⟨L.length - 1, by omega, ?_, by omega⟩
        have : L.length * 1500 ≤ (k / 1500) * 1500 := by
          have : L.length ≤ k / 1500 := by omega
          exact Nat.mul_le_mul_right 1500 this
        omega

/-- Witness for C1 at a concrete input. -/
theorem chunk_text_fixed_windows_witness :
    chunk_text ['h', 'i'] = some [['h', 'i']] :=
  (chunk_text_fixed_windows ['h', 'i']).1 (by decide)

/-! ## URL parsing (youtube_utils.py, get_youtube_video_id)

The helpers below model the fragments of urllib.parse that the function
uses.  urlparse(url).query is the part of the URL after the first
question mark and before the first hash sign (ASCII control characters,
which newer CPython strips first, are outside the modelled input space).
parse_qs is modelled with its default arguments: fields split on
ampersands, blank fields and valueless or blank-valued fields dropped,
names and values percent-decoded; percent-escapes of non-ASCII bytes
(which CPython assembles into UTF-8) are left literal, as no caller input
in this development contains them. -/

/-- Value of an ASCII hex digit. -/
def hexVal (c : Char) : Option Nat :=
  if '0' ≤ c ∧ c ≤ '9' then some (c.toNat - 48)
  else if 'A' ≤ c ∧ c ≤ 'F' then some (c.toNat - 55)
  else if 'a' ≤ c ∧ c ≤ 'f' then some (c.toNat - 87)
  else none

/-- urllib.parse.unquote_plus, restricted to ASCII percent-escapes. -/
def pyUnquotePlus : List Char → List Char
  | [] => []
  | '+' :: rest => ' ' :: pyUnquotePlus rest
  | '%' :: h₁ :: h₂ :: rest =>
    (match hexVal h₁, hexVal h₂ with
     | some a, some b =>
       if a * 16 + b < 128 then Char.ofNat (a * 16 + b) :: pyUnquotePlus rest
       else '%' :: pyUnquotePlus (h₁ :: h₂ :: rest)
     | _, _ => '%' :: pyUnquotePlus (h₁ :: h₂ :: rest))
  | c :: rest => c :: pyUnquotePlus rest

/-- Query component of urlparse(url): the text after the first question
mark of the part of the URL before the first hash sign. -/
def urlparseQuery (url : List Char) : List Char :=
  let beforeFrag := upToFirstOcc ['#'] url
  match findOcc ['?'] beforeFrag with
  | some i => beforeFrag.drop (i + 1)
  | none => []

/-- parse_qs(q).get("v", [None])[0] of youtube_utils.py: the first value
bound to the name v in the query string, or none. -/
def parseQsV (qs : List Char) : Option (List Char) :=
  let fields := List.splitOn '&' qs
  let pairs := fields.filterMap (fun field =>
    if field.isEmpty then none
    else
      match findOcc ['='] field with
      | none => none
      | some i =>
        let value := field.drop (i + 1)
        if value.isEmpty then none
        else some (pyUnquotePlus (field.take i), pyUnquotePlus value))
  match pairs.find? (fun p => p.1 == ['v']) with
  | some p => some p.2
  | none => none

/-- Needle "youtu.be/". -/
def sepYoutuBe : List Char := "youtu.be/".data

/-- Needle "youtube.com/watch?v=". -/
def sepWatch : List Char := "youtube.com/watch?v=".data

/-- Needle "youtube.com/embed/". -/
def sepEmbed : List Char := "youtube.com/embed/".data

/-- Needle "youtube.com/v/". -/
def sepSlashV : List Char := "youtube.com/v/".data

/-- The `.split("?")[0].split("&")[0]` truncation applied after each quick
pattern of get_youtube_video_id. -/
def truncQA (t : List Char) : List Char :=
  upToFirstOcc ['&'] (upToFirstOcc ['?'] t)

/-- Alternatives of the fallback regular expression
`(?:v=|/videos/|embed/|youtu\.be/|/v/|watch\?v=|\.be/)`, in source order. -/
def fallbackAlts : List (List Char) :=
  ["v=".data, "/videos/".data, "embed/".data, "youtu.be/".data,
   "/v/".data, "watch?v=".data, ".be/".data]

/-- Character class `[A-Za-z0-9_-]` of the fallback regular expression. -/
def idChar (c : Char) : Bool := c.isAlpha || c.isDigit || c == '_' || c == '-'

/-- One attempt of the fallback regular expression at a fixed position:
the alternatives are tried in order and the first one that is a prefix of
the remaining text and is followed by eleven id characters yields the
captured group. -/
def matchAltsAt (s : List Char) : List (List Char) → Option (List Char)
  | [] => none
  | alt :: alts =>
    if List.isPrefixOf alt s then
      let grp := (s.drop alt.length).take 11
      if grp.length == 11 && grp.all idChar then some grp
      else matchAltsAt s alts
    else matchAltsAt s alts

/-- re.search with the fallback pattern: leftmost position at which some
alternative matches. -/
def regexSearch : List Char → Option (List Char)
  | [] => none
  | c :: rest =>
    match matchAltsAt (c :: rest) fallbackAlts with
    | some g => some g
    | none => regexSearch rest

/-- get_youtube_video_id of youtube_utils.py. -/
def get_youtube_video_id (url : List Char) : Option (List Char) :=
  if url.isEmpty then none
  else if hasSub sepYoutuBe url then
    some (truncQA (splitSecondPart url sepYoutuBe))
  else if hasSub sepWatch url then
    parseQsV (urlparseQuery url)
  else if hasSub sepEmbed url then
    some (truncQA (splitSecondPart url sepEmbed))
  else if hasSub sepSlashV url then
    some (truncQA (splitSecondPart url sepSlashV))
  else regexSearch url

/-- Truncation before the first occurrence of a single character is the
longest initial segment avoiding it. -/
theorem upToFirstOcc_single (a : Char) (t : List Char) :
    upToFirstOcc [a] t = t.takeWhile (fun c => !(c == a)) := by
  induction t with
  | nil => rfl
  | cons x r ih =>
    have hpre : List.isPrefixOf [a] (x :: r) = (a == x) := by
      simp [List.isPrefixOf]
    by_cases hx : x = a
    · subst hx
      have : List.isPrefixOf [x] (x :: r) = true := by simp [hpre]
      simp [upToFirstOcc, findOcc, this, List.takeWhile_cons]
    · have hax : List.isPrefixOf [a] (x :: r) = false := by
        rw [hpre]
        exact beq_eq_false_iff_ne.mpr (fun h => hx h.symm)
      have hxa : (x == a) = false := beq_eq_false_iff_ne.mpr hx
      rw [List.takeWhile_cons]
      simp only [hxa, Bool.not_false, if_pos rfl, ← ih]
      cases hfo : findOcc [a] r with
      | none =>
        simp [upToFirstOcc, findOcc, hax, hfo]
      | some i =>
        simp [upToFirstOcc, findOcc, hax, hfo]

/-- Composition of two takeWhile filters. -/
theorem takeWhile_and (p q : Char → Bool) (t : List Char) :
    (t.takeWhile p).takeWhile q = t.takeWhile (fun c => p c && q c) := by
  induction t with
  | nil => rfl
  | cons x r ih =>
    by_cases hp : p x
    · by_cases hq : q x
      · simp [List.takeWhile, hp, hq, ih]
      · simp [List.takeWhile, hp, hq]
    · simp [List.takeWhile, hp]

/-- The post-pattern truncation keeps exactly the characters before the
first question mark or ampersand. -/
theorem truncQA_eq_takeWhile (t : List Char) :
    truncQA t = t.takeWhile (fun c => !(c == '?') && !(c == '&')) := by
  unfold truncQA
  rw [upToFirstOcc_single, upToFirstOcc_single, takeWhile_and]

/-- regexSearch fails exactly when the pattern matches at no position. -/
theorem regexSearch_none_iff (s : List Char) :
    regexSearch s = none ↔ ∀ i, matchAltsAt (s.drop i) fallbackAlts = none := by
  induction s with
  | nil =>
    simp only [regexSearch, List.drop_nil, true_iff]
    intro i
    decide
  | cons c rest ih =>
    constructor
    · intro h i
      cases hm : matchAltsAt (c :: rest) fallbackAlts with
      | some g => simp [regexSearch, hm] at h
      | none =>
        simp only [regexSearch, hm] at h
        cases i with
        | zero => simpa using hm
        | succ i => exact (ih.mp h) i
    · intro h
      have h0 := h 0
      simp only [List.drop_zero] at h0
      simp only [regexSearch, h0]
      exact ih.mpr (fun i => by simpa using h (i + 1))

/-- Counterexample to claim C7 as stated.  First input: a URL that
contains both a youtu.be marker and a watch marker; its v query parameter
is abcdefghijk, but the function returns xy because the youtu.be branch is
tested first.  Second input: a URL in which youtu.be occurs twice; the
claimed rule (everything after the first youtu.be, truncated at the first
question mark or ampersand) gives abyoutu.be/cd, but the function returns
ab because Python split also cuts at the second occurrence. -/
theorem get_youtube_video_id_counterexample :
    (hasSub sepWatch ("youtube.com/watch?v=abcdefghijk&youtu.be/xy".data) = true ∧
     parseQsV (urlparseQuery ("youtube.com/watch?v=abcdefghijk&youtu.be/xy".data)) =
       some ("abcdefghijk".data) ∧
     get_youtube_video_id ("youtube.com/watch?v=abcdefghijk&youtu.be/xy".data) =
       some ("xy".data) ∧
     ("xy".data : List Char) ≠ "abcdefghijk".data) ∧
    (truncQA (afterFirstOcc sepYoutuBe ("youtu.be/abyoutu.be/cd?x=1".data)) =
       "abyoutu.be/cd".data ∧
     get_youtube_video_id ("youtu.be/abyoutu.be/cd?x=1".data) = some ("ab".data) ∧
     ("ab".data : List Char) ≠ "abyoutu.be/cd".data) := by
  decide

/-- Claim C7 as amended: the URL patterns are mutually exclusive in source
order, the first matching one decides the result.  A URL containing
youtu.be/ yields the split segment after the first occurrence truncated at
the first question mark or ampersand; a URL containing
youtube.com/watch?v= (and no earlier pattern) yields the first value of
the v query parameter, or none when that parameter is absent or blank;
the embed and /v/ patterns behave like youtu.be/; an empty URL, or one
with no pattern at all on which the fallback 11-character regular
expression finds no match, yields none. -/
theorem get_youtube_video_id_amended (url : List Char) :
    (url = [] → get_youtube_video_id url = none) ∧
    (hasSub sepYoutuBe url = true →
      get_youtube_video_id url =
        some ((splitSecondPart url sepYoutuBe).takeWhile
          (fun c => !(c == '?') && !(c == '&')))) ∧
    (hasSub sepYoutuBe url = false → hasSub sepWatch url = true →
      get_youtube_video_id url = parseQsV (urlparseQuery url)) ∧
    (hasSub sepYoutuBe url = false → hasSub sepWatch url = false →
      hasSub sepEmbed url = true →
      get_youtube_video_id url =
        some ((splitSecondPart url sepEmbed).takeWhile
          (fun c => !(c == '?') && !(c == '&')))) ∧
    (hasSub sepYoutuBe url = false → hasSub sepWatch url = false →
      hasSub sepEmbed url = false → hasSub sepSlashV url = true →
      get_youtube_video_id url =
        some ((splitSecondPart url sepSlashV).takeWhile
          (fun c => !(c == '?') && !(c == '&')))) ∧
    (hasSub sepYoutuBe url = false → hasSub sepWatch url = false →
      hasSub sepEmbed url = false → hasSub sepSlashV url = false →
      (∀ i, matchAltsAt (url.drop i) fallbackAlts = none) →
      get_youtube_video_id url = none) := by
  refine ⟨?_, ?_, ?_, ?_, ?_, ?_⟩
  · intro h
    subst h
    rfl
  · intro h1
    have hne : url.isEmpty = false := by
      cases url with
      | nil => exact absurd h1 (by decide)
      | cons c r => rfl
    rw [← truncQA_eq_takeWhile]
    simp [get_youtube_video_id, hne, h1]
  · intro h1 h2
    have hne : url.isEmpty = false := by
      cases url with
      | nil => exact absurd h2 (by decide)
      | cons c r => rfl
    simp [get_youtube_video_id, hne, h1, h2]
  · intro h1 h2 h3
    have hne : url.isEmpty = false := by
      cases url with
      | nil => exact absurd h3 (by decide)
      | cons c r => rfl
    rw [← truncQA_eq_takeWhile]
    simp [get_youtube_video_id, hne, h1, h2, h3]
  · intro h1 h2 h3 h4
    have hne : url.isEmpty = false := by
      cases url with
      | nil => exact absurd h4 (by decide)
      | cons c r => rfl
    rw [← truncQA_eq_takeWhile]
    simp [get_youtube_video_id, hne, h1, h2, h3, h4]
  · intro h1 h2 h3 h4 h5
    cases url with
    | nil => rfl
    | cons c r =>
      have hre : regexSearch (c :: r) = none := (regexSearch_none_iff (c :: r)).mpr h5
      simp [get_youtube_video_id, h1, h2, h3, h4, hre]

/-- Witness for the amended C7 at a concrete short URL. -/
theorem get_youtube_video_id_amended_witness :
    get_youtube_video_id ("https://youtu.be/dQw4w9WgXcQ?t=10".data) =
      some ((splitSecondPart ("https://youtu.be/dQw4w9WgXcQ?t=10".data) sepYoutuBe).takeWhile
        (fun c => !(c == '?') && !(c == '&'))) :=
  (get_youtube_video_id_amended ("https://youtu.be/dQw4w9WgXcQ?t=10".data)).2.1 (by decide)

/-! ## Transcript acquisition (youtube_utils.py, get_youtube_transcript)

Every third-party call that can raise is a field of type Except in the
environment record below; the function bodies reproduce the try/except
structure of the source, so which exceptions are absorbed where is part
of the embedding and not an assumption. -/

/-- Python exceptions relevant to the transcript chain.  The two named
constructors are the youtube_transcript_api exception classes caught by
name in the source; every other Exception is otherError. -/
inductive PyErr
  | transcriptsDisabled
  | noTranscriptFound
  | otherError
deriving DecidableEq

/-- Outcomes of the external calls made while acquiring a transcript.
Fields are Except-valued where the call can raise. -/
structure TEnv where
  /-- blob.exists() on the cached transcript object. -/
  cacheExists : Except PyErr Bool
  /-- blob.download_as_text() on the cached transcript object. -/
  cacheDownload : Except PyErr (List Char)
  /-- YouTubeTranscriptApi.list_transcripts. -/
  listTranscripts : Except PyErr Unit
  /-- transcript_list.find_transcript for languages en, hi. -/
  findManual : Except PyErr Unit
  /-- transcript_list.find_generated_transcript for languages en, hi. -/
  findGenerated : Except PyErr Unit
  /-- transcript.fetch(): the text fields of the caption items. -/
  fetchItems : Except PyErr (List (List Char))
  /-- blob.upload_from_string in _save_transcript_to_gcs. -/
  saveOutcome : Except PyErr Unit
  /-- pytube YouTube(...) construction plus its length attribute. -/
  ytInit : Except PyErr Nat
  /-- MAX_VIDEO_LENGTH_SEC configuration value. -/
  maxVideoLen : Nat
  /-- subtypes of the audio-only streams, in abr order. -/
  streams : List (List Char)
  /-- stream.download into the temporary directory. -/
  downloadOutcome : Except PyErr Unit
  /-- os.listdir of the temporary directory. -/
  listdirFiles : Except PyErr (List (List Char))
  /-- os.path.exists on the downloaded file. -/
  foundExists : Bool
  /-- AudioSegment conversion and the resulting file size. -/
  convertSize : Except PyErr Nat
  /-- Helper _upload_file_to_gcs (no try/except of its own in the source). -/
  uploadOutcome : Except PyErr (List Char)
  /-- long_running_recognize result transcripts. -/
  sttResults : Except PyErr (List (List Char))

/-- Helper _fetch_transcript_from_gcs: the whole body is inside try/except, so
any error yields None. -/
def fetchTranscriptFromGCS (env : TEnv) : Option (List Char) :=
  match (do
      let ex ← env.cacheExists
      if ex then do
        let t ← env.cacheDownload
        pure (some t)
      else
        pure none : Except PyErr (Option (List Char))) with
  | .ok r => r
  | .error _ => none

/-- Helper _save_transcript_to_gcs: errors are printed and swallowed. -/
def saveTranscriptToGCS (env : TEnv) : Unit :=
  match env.saveOutcome with
  | .ok _ => ()
  | .error _ => ()

/-- Helper _choose_audio_stream: the first audio stream whose subtype contains
webm, else the first stream, else None. -/
def choose_audio_stream (streams : List (List Char)) : Option (List Char) :=
  match streams.find? (fun s => hasSub ("webm".data) s) with
  | some s => some s
  | none => streams.head?

/-- Helper _convert_to_flac_16k_mono: true when the conversion succeeded and the
output file is non-empty; any exception yields false. -/
def convert_to_flac_16k_mono (env : TEnv) : Bool :=
  match env.convertSize with
  | .ok size => decide (0 < size)
  | .error _ => false

/-- Helper _transcribe_from_gcs_uri: the recognised parts, each stripped, joined
with spaces and stripped; an empty result or any exception yields None. -/
def transcribe_from_gcs_uri (env : TEnv) : Option (List Char) :=
  match env.sttResults with
  | .ok results =>
    let transcript := pyStrip (List.intercalate [' '] (results.map pyStrip))
    if transcript.isEmpty then none else some transcript
  | .error _ => none

/-- Caption lookup block of get_youtube_transcript, before its outer
try/except: a raised error propagates out of this definition exactly when
it propagates to the outer handlers in the source.  The two inner
handlers catch only NoTranscriptFound. -/
def captionsRaw (env : TEnv) : Except PyErr (Option (List Char)) := do
  let _ ← env.listTranscripts
  let foundManual ←
    (match env.findManual with
     | .ok _ => Except.ok true
     | .error PyErr.noTranscriptFound => Except.ok false
     | .error e => Except.error e)
  let found ←
    (if foundManual then Except.ok true
     else
       match env.findGenerated with
       | .ok _ => Except.ok true
       | .error PyErr.noTranscriptFound => Except.ok false
       | .error e => Except.error e)
  if found then do
    let items ← env.fetchItems
    let text := pyStrip (List.intercalate [' '] items)
    if text.isEmpty then pure none
    else
      let _ := saveTranscriptToGCS env
      pure (some text)
  else pure none

/-- Audio-download fallback block of get_youtube_transcript, before its
outer try/except.  Each pure-none exit mirrors a return None in the
source; raised errors propagate to the outer handler. -/
def fallbackRaw (env : TEnv) : Except PyErr (Option (List Char)) := do
  let len ← env.ytInit
  if len ≠ 0 ∧ env.maxVideoLen < len then pure none
  else
    match choose_audio_stream env.streams with
    | none => pure none
    | some _ => do
      let _ ← env.downloadOutcome
      let files ← env.listdirFiles
      match files.find? (fun f => List.isPrefixOf ("audio_raw".data) f) with
      | none => pure none
      | some _ =>
        if !env.foundExists then pure none
        else if !convert_to_flac_16k_mono env then pure none
        else do
          let _ ← env.uploadOutcome
          match transcribe_from_gcs_uri env with
          | some t =>
            let _ := saveTranscriptToGCS env
            pure (some t)
          | none => pure none

/-- Transcript yielded by the cache step: the code returns the cached
text only when it is truthy (present and non-empty). -/
def cacheYield (env : TEnv) : Option (List Char) :=
  match fetchTranscriptFromGCS env with
  | some c => if c.isEmpty then none else some c
  | none => none

/-- Transcript yielded by the caption step: the outer except clauses of
the source turn every raised error into a fall-through. -/
def captionsYield (env : TEnv) : Option (List Char) :=
  match captionsRaw env with
  | .ok r => r
  | .error _ => none

/-- Transcript yielded by the Google STT fallback step: the outer broad
except clause turns every raised error into a fall-through to return
None. -/
def sttYield (env : TEnv) : Option (List Char) :=
  match fallbackRaw env with
  | .ok r => r
  | .error _ => none

/-- Providers of the transcript chain, in the order the source tries
them. -/
inductive Provider
  | cache
  | captions
  | stt
deriving DecidableEq

/-- get_youtube_transcript of youtube_utils.py, instrumented with the
list of providers whose blocks were entered, in order.  The input is an
optional string so that a Python None video id is representable; None and
the empty string are both falsy and short-circuit to None. -/
def get_youtube_transcript_tr (env : TEnv) (video_id : Option (List Char)) :
    Except PyErr (Option (List Char)) × List Provider :=
  match video_id with
  | none => (.ok none, [])
  | some v =>
    if v.isEmpty then (.ok none, [])
    else
      match cacheYield env with
      | some c => (.ok (some c), [Provider.cache])
      | none =>
        match captionsYield env with
        | some t => (.ok (some t), [Provider.cache, Provider.captions])
        | none =>
          (.ok (sttYield env), [Provider.cache, Provider.captions, Provider.stt])

/-- get_youtube_transcript of youtube_utils.py (result only). -/
def get_youtube_transcript (env : TEnv) (video_id : Option (List Char)) :
    Except PyErr (Option (List Char)) :=
  (get_youtube_transcript_tr env video_id).1

/-- Claim C5: get_youtube_transcript is total on its result type: for
every environment outcome and every video id, including None and the
empty string, it evaluates to an ordinary return (a transcript or None)
and never to a propagating exception. -/
theorem get_youtube_transcript_total (env : TEnv) (video_id : Option (List Char)) :
    ∃ r : Option (List Char), get_youtube_transcript env video_id = .ok r := by
  unfold get_youtube_transcript get_youtube_transcript_tr
  cases video_id with
  | none => exact ⟨none, rfl⟩
  | some v =>
    by_cases hv : v.isEmpty
    · exact ⟨none, by simp [hv]⟩
    · simp only [hv, Bool.false_eq_true, if_false]
      cases hc : cacheYield env with
      | some c => exact ⟨some c, rfl⟩
      | none =>
        cases hcap : captionsYield env with
        | some t => exact ⟨some t, rfl⟩
        | none => exact ⟨sttYield env, rfl⟩

/-- Environment in which every external call fails with a generic
exception; used as a concrete input below. -/
def envAllFail : TEnv where
  cacheExists := .error .otherError
  cacheDownload := .error .otherError
  listTranscripts := .error .transcriptsDisabled
  findManual := .error .noTranscriptFound
  findGenerated := .error .noTranscriptFound
  fetchItems := .error .otherError
  saveOutcome := .error .otherError
  ytInit := .error .otherError
  maxVideoLen := 7200
  streams := []
  downloadOutcome := .error .otherError
  listdirFiles := .error .otherError
  foundExists := false
  convertSize := .error .otherError
  uploadOutcome := .error .otherError
  sttResults := .error .otherError

/-- Counterexample to claim C4 as stated.  On a run in which the caption
lookup fails, the sequence of providers actually tried is cache, then
captions, then Google STT: the first provider tried is the GCS transcript
cache rather than captions, and no Whisper step exists between captions
and Google STT (the Provider type, read off the source, has no Whisper
member). -/
theorem transcript_chain_counterexample :
    (get_youtube_transcript_tr envAllFail (some ['x'])).2 =
      [Provider.cache, Provider.captions, Provider.stt] ∧
    (get_youtube_transcript_tr envAllFail (some ['x'])).2 ≠
      [Provider.captions, Provider.stt] := by
  decide

/-- Claim C4 as amended: transcript acquisition tries the providers in
the sequence GCS cache, then YouTube captions, then the Google STT
fallback; a later provider is entered only after every earlier provider
has been tried and yielded no transcript, and no provider is entered once
an earlier one has succeeded. -/
theorem transcript_provider_chain (env : TEnv) (v : List Char) (hv : v.isEmpty = false) :
    (∀ t, cacheYield env = some t →
      get_youtube_transcript_tr env (some v) = (.ok (some t), [Provider.cache])) ∧
    (cacheYield env = none → ∀ t, captionsYield env = some t →
      get_youtube_transcript_tr env (some v) =
        (.ok (some t), [Provider.cache, Provider.captions])) ∧
    (cacheYield env = none → captionsYield env = none →
      get_youtube_transcript_tr env (some v) =
        (.ok (sttYield env), [Provider.cache, Provider.captions, Provider.stt])) := by
  refine ⟨?_, ?_, ?_⟩
  · intro t ht
    simp [get_youtube_transcript_tr, hv, ht]
  · intro hc t ht
    simp [get_youtube_transcript_tr, hv, hc, ht]
  · intro hc hcap
    simp [get_youtube_transcript_tr, hv, hc, hcap]

/-- Witness for the amended C4 at a concrete environment. -/
theorem transcript_provider_chain_witness :
    get_youtube_transcript_tr envAllFail (some ['x']) =
      (.ok (sttYield envAllFail), [Provider.cache, Provider.captions, Provider.stt]) :=
  (transcript_provider_chain envAllFail ['x'] (by decide)).2.2 (by decide) (by decide)

/-! ## Vector retrieval (main.py, load_video and chat)

Embedding vectors are modelled as lists of exact rationals: the claims
under check concern which chunks are selected, not float rounding.  The
FAISS calls are not repository code, so IndexFlatIP search is modelled
from its documented semantics; the brute-force scan of the claim is a
second, independently written definition, and claim C2 compares the two. -/

/-- Inner product of two vectors. -/
def ip (u v : List ℚ) : ℚ := (List.zipWith (fun a b => a * b) u v).sum

/-- Score/id pairs of a query against every stored vector, in storage
order (FAISS internal ids are insertion positions 0, 1, ...). -/
def scoreIdx (db : List (List ℚ)) (q : List ℚ) : List (ℚ × ℕ) :=
  (List.range db.length).map (fun i => (ip q (db.getD i []), i))

/-- Ranking order on score/id pairs: higher score first, lower id first
among equal scores. -/
def ipLe (a b : ℚ × ℕ) : Prop := b.1 < a.1 ∨ (a.1 = b.1 ∧ a.2 ≤ b.2)

instance : DecidableRel ipLe := fun _ _ => by unfold ipLe; exact inferInstance

/-- Ranking order is reflexive. -/
theorem ipLe_refl (a : ℚ × ℕ) : ipLe a a := Or.inr ⟨rfl, le_refl _⟩

instance : IsTotal (ℚ × ℕ) ipLe where
  total a b := by
    rcases lt_trichotomy a.1 b.1 with h | h | h
    · exact Or.inr (Or.inl h)
    · rcases Nat.le_total a.2 b.2 with h2 | h2
      · exact Or.inl (Or.inr ⟨h, h2⟩)
      · exact Or.inr (Or.inr ⟨h.symm, h2⟩)
    · exact Or.inl (Or.inl h)

instance : IsTrans (ℚ × ℕ) ipLe where
  trans a b c hab hbc := by
    rcases hab with h1 | ⟨h1, h1'⟩ <;> rcases hbc with h2 | ⟨h2, h2'⟩
    · exact Or.inl (lt_trans h2 h1)
    · exact Or.inl (h2 ▸ h1)
    · exact Or.inl (lt_of_lt_of_le h2 (le_of_eq h1.symm))
    · exact Or.inr ⟨h1.trans h2, h1'.trans h2'⟩

instance : IsAntisymm (ℚ × ℕ) ipLe where
  antisymm a b hab hba := by
    rcases hab with h1 | ⟨h1, h1'⟩ <;> rcases hba with h2 | ⟨h2, h2'⟩
    · exact absurd (lt_trans h1 h2) (lt_irrefl _)
    · exact absurd (h2 ▸ h1) (lt_irrefl _)
    · exact absurd (h1 ▸ h2) (lt_irrefl _)
    · exact Prod.ext_iff.mpr ⟨h1, le_antisymm h1' h2'⟩

/-- One comparison step of the brute-force scan: keep the better-ranked
of two pairs, preferring the accumulator on ties. -/
def pickBest (a b : ℚ × ℕ) : ℚ × ℕ := if ipLe a b then a else b

/-- Brute-force pass over all pairs returning the best-ranked one. -/
def argBest : List (ℚ × ℕ) → Option (ℚ × ℕ)
  | [] => none
  | x :: xs => some (xs.foldl pickBest x)

/-- Removal of the first occurrence of a pair (Python list.remove). -/
def removeFirst (m : ℚ × ℕ) : List (ℚ × ℕ) → List (ℚ × ℕ)
  | [] => []
  | x :: xs => if x = m then xs else x :: removeFirst m xs

/-- Removing a member yields the list back up to permutation. -/
theorem removeFirst_perm (m : ℚ × ℕ) (l : List (ℚ × ℕ)) (h : m ∈ l) :
    List.Perm l (m :: removeFirst m l) := by
  induction l with
  | nil => simp at h
  | cons x xs ih =>
    by_cases hx : x = m
    · subst hx
      simp [removeFirst]
    · have hm : m ∈ xs := by
        rcases List.mem_cons.mp h with h' | h'
        · exact absurd h'.symm hx
        · exact h'
      have := (ih hm).cons x
      simp only [removeFirst, if_neg hx]
      exact this.trans (List.Perm.swap m x (removeFirst m xs))

/-- Removing a member shortens the list by one. -/
theorem removeFirst_length (m : ℚ × ℕ) (l : List (ℚ × ℕ)) (h : m ∈ l) :
    (removeFirst m l).length = l.length - 1 := by
  have := (removeFirst_perm m l h).length_eq
  simp only [List.length_cons] at this
  omega

/-- Brute-force top-k selection: repeatedly scan the remaining pairs for
the best-ranked one and remove it. -/
def bruteSelect : Nat → List (ℚ × ℕ) → List (ℚ × ℕ)
  | 0, _ => []
  | k + 1, l =>
    match argBest l with
    | none => []
    | some m => m :: bruteSelect k (removeFirst m l)

/-- Brute-force inner-product scan of the spec: score every stored
vector against the query and keep the k highest-scoring ids in
descending score order. -/
def bruteForceTopK (db : List (List ℚ)) (q : List ℚ) (k : Nat) : List Nat :=
  (bruteSelect k (scoreIdx db q)).map (fun p => p.2)

/-- Modelled from the spec: faiss.IndexFlatIP.search is not repository
code; per the FAISS documentation IndexFlatIP performs exhaustive
inner-product search and returns the k best ids in descending score
order, padding with -1 when fewer than k vectors are stored (ties are
resolved toward the smaller id in this model). -/
def faissSearchIds (db : List (List ℚ)) (q : List ℚ) (k : Nat) : List Int :=
  ((List.insertionSort ipLe (scoreIdx db q)).take k).map (fun p => (p.2 : Int))
    ++ List.replicate (k - db.length) (-1)

/-- Retrieval step of /chat: iterate over the searched ids, skip the
negative padding, look each id up in id2chunk and keep the truthy
(non-empty) chunks. -/
def retrieveFromIndex (index : List (List ℚ)) (id2chunk : List (List Char))
    (qv : List ℚ) : List (List Char) :=
  (faissSearchIds index qv TOP_K).filterMap (fun (idx : Int) =>
    if idx < 0 then none
    else
      match id2chunk.get? idx.toNat with
      | some c => if c.isEmpty then none else some c
      | none => none)

/-- The left fold with pickBest stays in the candidate set and ranks at
or above the seed and every scanned element. -/
theorem foldl_pickBest_spec (xs : List (ℚ × ℕ)) :
    ∀ a, (xs.foldl pickBest a = a ∨ xs.foldl pickBest a ∈ xs) ∧
      ipLe (xs.foldl pickBest a) a ∧ ∀ x ∈ xs, ipLe (xs.foldl pickBest a) x := by
  induction xs with
  | nil => exact fun a => ⟨Or.inl rfl, ipLe_refl a, by simp⟩
  | cons b xs ih =>
    intro a
    obtain ⟨hmem, hacc, hall⟩ := ih (pickBest a b)
    have hpick : ipLe (pickBest a b) a ∧ ipLe (pickBest a b) b := by
      unfold pickBest
      by_cases h : ipLe a b
      · rw [if_pos h]
        exact ⟨ipLe_refl a, h⟩
      · rw [if_neg h]
        exact ⟨(total_of ipLe a b).resolve_left h, ipLe_refl b⟩
    refine ⟨?_, ?_, ?_⟩
    · rcases hmem with h | h
      · rw [List.foldl_cons, h]
        unfold pickBest
        by_cases hc : ipLe a b
        · simp [hc]
        · simp [hc]
      · exact Or.inr (List.mem_cons_of_mem b h)
    · exact Trans.trans hacc hpick.1
    · intro x hx
      rcases List.mem_cons.mp hx with rfl | hx
      · exact Trans.trans hacc hpick.2
      · exact hall x hx

/-- argBest returns a member that ranks at or above every member. -/
theorem argBest_spec (l : List (ℚ × ℕ)) (m : ℚ × ℕ) (h : argBest l = some m) :
    m ∈ l ∧ ∀ x ∈ l, ipLe m x := by
  cases l with
  | nil => simp [argBest] at h
  | cons x xs =>
    simp only [argBest, Option.some_inj] at h
    obtain ⟨hmem, hacc, hall⟩ := foldl_pickBest_spec xs x
    subst h
    constructor
    · rcases hmem with h | h
      · rw [h]; exact List.mem_cons_self x xs
      · exact List.mem_cons_of_mem x h
    · intro y hy
      rcases List.mem_cons.mp hy with rfl | hy
      · exact hacc
      · exact hall y hy

/-- The head of the insertion sort ranks at or above every element of the
original list. -/
theorem sortedHead_spec (l : List (ℚ × ℕ)) (m : ℚ × ℕ) (rest : List (ℚ × ℕ))
    (heq : List.insertionSort ipLe l = m :: rest) :
    m ∈ l ∧ (∀ x ∈ l, ipLe m x) ∧ List.Sorted ipLe rest := by
  have hs := List.sorted_insertionSort ipLe l
  rw [heq] at hs
  obtain ⟨hhead, htail⟩ := List.sorted_cons.mp hs
  have hperm : List.Perm (List.insertionSort ipLe l) l := List.perm_insertionSort ipLe l
  have hmem : m ∈ l := hperm.mem_iff.mp (heq ▸ List.mem_cons_self m rest)
  refine ⟨hmem, ?_, htail⟩
  intro x hx
  have : x ∈ m :: rest := heq ▸ hperm.mem_iff.mpr hx
  rcases List.mem_cons.mp this with rfl | hx'
  · exact ipLe_refl x
  · exact hhead x hx'

/-- Iterated brute-force extraction of the k best pairs agrees with
taking the first k entries of the insertion sort. -/
theorem bruteSelect_eq_take (n : Nat) :
    ∀ k l, l.length ≤ n →
    bruteSelect k l = (List.insertionSort ipLe l).take k := by
  induction n with
  | zero =>
    intro k l hl
    have : l = [] := List.length_eq_zero.mp (Nat.le_zero.mp hl)
    subst this
    cases k <;> simp [bruteSelect, argBest]
  | succ n ih =>
    intro k l hl
    cases k with
    | zero => simp [bruteSelect]
    | succ k =>
      cases hls : List.insertionSort ipLe l with
      | nil =>
        have : l = [] := by
          have := List.perm_insertionSort ipLe l
          rw [hls] at this
          exact (List.Perm.nil_eq this).symm
        subst this
        simp [bruteSelect, argBest]
      | cons m rest =>
        have hlne : l ≠ [] := by
          intro h
          subst h
          simp [List.insertionSort] at hls
        obtain ⟨hm_mem, hm_min, hrest_sorted⟩ := sortedHead_spec l m rest hls
        obtain ⟨m₀, hm₀⟩ : ∃ m₀, argBest l = some m₀ := by
          cases l with
          | nil => exact absurd rfl hlne
          | cons x xs => exact ⟨xs.foldl pickBest x, rfl⟩
        obtain ⟨hm₀_mem, hm₀_min⟩ := argBest_spec l m₀ hm₀
        have hmm : m₀ = m := antisymm (hm₀_min m hm_mem) (hm_min m₀ hm₀_mem)
        subst hmm
        have hperm : List.Perm l (m₀ :: rest) := by
          have := List.perm_insertionSort ipLe l
          rw [hls] at this
          exact this.symm
        have herase_perm : List.Perm (removeFirst m₀ l) rest := by
          have h1 : List.Perm l (m₀ :: removeFirst m₀ l) := removeFirst_perm m₀ l hm₀_mem
          exact (h1.symm.trans hperm).cons_inv
        have hrest_eq : List.insertionSort ipLe (removeFirst m₀ l) = rest :=
          List.eq_of_perm_of_sorted
            ((List.perm_insertionSort ipLe (removeFirst m₀ l)).trans herase_perm)
            (List.sorted_insertionSort ipLe (removeFirst m₀ l)) hrest_sorted
        have hlen : (removeFirst m₀ l).length ≤ n := by
          rw [removeFirst_length m₀ l hm₀_mem]
          omega
        show bruteSelect (k + 1) l = (m₀ :: rest).take (k + 1)
        simp only [bruteSelect, hm₀, List.take_succ_cons]
        rw [ih k (removeFirst m₀ l) hlen, hrest_eq]

/-- Claim C2: the modelled FAISS IndexFlatIP search over the session
index is equivalent to the brute-force scan that scores every stored
chunk vector against the query and keeps the TOP_K highest-scoring ids in
descending score order (padded with -1 ids when fewer than TOP_K vectors
are stored), and the /chat retrieval step returns exactly those top
chunks, mapped through id2chunk with blank chunks skipped. -/
theorem chat_retrieval_brute_force (db : List (List ℚ)) (q : List ℚ) :
    faissSearchIds db q TOP_K =
      (bruteForceTopK db q TOP_K).map Int.ofNat
        ++ List.replicate (TOP_K - db.length) (-1) ∧
    List.Sorted ipLe (bruteSelect TOP_K (scoreIdx db q)) ∧
    ∀ id2chunk : List (List Char),
      retrieveFromIndex db id2chunk q =
        (bruteForceTopK db q TOP_K).filterMap (fun i =>
          match id2chunk.get? i with
          | some c => if c.isEmpty then none else some c
          | none => none) := by
  have hsel : bruteSelect TOP_K (scoreIdx db q) =
      (List.insertionSort ipLe (scoreIdx db q)).take TOP_K :=
    bruteSelect_eq_take (scoreIdx db q).length TOP_K (scoreIdx db q) (le_refl _)
  have hmain : faissSearchIds db q TOP_K =
      (bruteForceTopK db q TOP_K).map Int.ofNat
        ++ List.replicate (TOP_K - db.length) (-1) := by
    unfold faissSearchIds bruteForceTopK
    rw [hsel, List.map_map]
    rfl
  refine ⟨hmain, ?_, ?_⟩
  · rw [hsel]
    exact List.Pairwise.sublist (List.take_sublist TOP_K _)
      (List.sorted_insertionSort ipLe (scoreIdx db q))
  · intro id2chunk
    unfold retrieveFromIndex
    rw [hmain, List.filterMap_append, List.filterMap_map]
    have hrep : (List.replicate (TOP_K - db.length) (-1 : Int)).filterMap
        (fun (idx : Int) =>
          if idx < 0 then none
          else
            match id2chunk.get? idx.toNat with
            | some c => if c.isEmpty then none else some c
            | none => none) = [] := by
      rw [List.filterMap_eq_nil_iff]
      intro a ha
      rw [List.eq_of_mem_replicate ha]
      simp
    rw [hrep, List.append_nil]
    congr 1

/-- Ids returned by the modelled search are either the -1 padding or
valid positions in the stored-vector list. -/
theorem faissSearchIds_mem_range (db : List (List ℚ)) (q : List ℚ) (k : Nat) :
    ∀ id ∈ faissSearchIds db q k, 0 ≤ id → id.toNat < db.length := by
  intro id hid hpos
  unfold faissSearchIds at hid
  rcases List.mem_append.mp hid with h | h
  · obtain ⟨p, hp, hpe⟩ := List.mem_map.mp h
    have hp' : p ∈ List.insertionSort ipLe (scoreIdx db q) :=
      List.take_subset k _ hp
    have hp'' : p ∈ scoreIdx db q :=
      (List.perm_insertionSort ipLe (scoreIdx db q)).mem_iff.mp hp'
    obtain ⟨i, hi, hie⟩ := List.mem_map.mp hp''
    have hlt : i < db.length := List.mem_range.mp hi
    have : p.2 = i := by rw [← hie]
    rw [← hpe, this]
    simpa using hlt
  · have : id = -1 := List.eq_of_mem_replicate h
    omega

/-- Witness for C2's universally quantified retrieval clause at a
concrete index and query. -/
theorem chat_retrieval_brute_force_witness :
    retrieveFromIndex [[1]] [['a']] [1] =
      (bruteForceTopK [[1]] [1] TOP_K).filterMap (fun i =>
        match [['a']].get? i with
        | some c => if c.isEmpty then none else some c
        | none => none) :=
  (chat_retrieval_brute_force [[1]] [1]).2.2 [['a']]

/-! ## Session store and routes (main.py)

The in-process sessions dictionary is a function from session keys to
optional sessions; uuid4 keys are modelled as externally supplied
naturals, with freshness a hypothesis where a claim needs it.  The
embedding model (fastembed plus L2 normalisation), the Gemini call and
the response formatter are abstract functions of the route environment:
no claim under check depends on their outputs, only on how the routes
use them. -/

/-- meta dictionary of a session. -/
structure SessionMeta where
  video_id : List Char
  n_chunks : Nat
deriving DecidableEq

/-- One entry of the sessions store: FAISS index contents (the stored
vectors in insertion order), the id2chunk mapping (a dense dict keyed by
0 .. n-1, modelled as the list of its values), the (q, a) history and the
meta dictionary. -/
structure Session where
  index : List (List ℚ)
  id2chunk : List (List Char)
  history : List (List Char × List Char)
  meta : SessionMeta
deriving DecidableEq

/-- The in-process session store. -/
abbrev Sessions := Nat → Option Session

/-- External functions used by the routes. -/
structure ChatEnv where
  /-- embed_texts applied to one text: fastembed embedding followed by
  L2 normalisation, abstracted as an arbitrary vector-valued function. -/
  embed : List Char → List ℚ
  /-- model.generate_content plus resp.text: ok gives the raw answer
  text, error models a raised exception. -/
  llm : List Char → Except Unit (List Char)
  /-- format_response_as_points of utils/formatResponse.py, abstracted. -/
  fmt : List Char → List Char

/-- Successful response bodies of /load_video. -/
inductive LoadResp
  | unavailable (video_id : List Char)
  | loaded (session_id : Nat) (n_chunks : Nat)
deriving DecidableEq

/-- Response body of /chat. -/
structure ChatResp where
  answer : List Char
  retrieved_count : Nat
deriving DecidableEq

/-- chunk_text at its default parameters, as the total function the rest
of main.py relies on; chunk_text_defaults_some below shows the none case
of the underlying loop is unreachable at these parameters. -/
def chunk_text_total (t : List Char) : List (List Char) :=
  (chunk_text t).getD []

/-- At the default parameters the chunking loop always returns, with a
non-empty chunk list. -/
theorem chunk_text_defaults_some (t : List Char) :
    chunk_text t = some (chunk_text_total t) ∧ chunk_text_total t ≠ [] := by
  have hex : ∃ L, chunk_text t = some L ∧ L ≠ [] := by
    unfold chunk_text
    by_cases hlen : t.length ≤ CHUNK_SIZE
    · exact ⟨[t], by simp [hlen], by simp⟩
    · simp only [hlen, if_false]
      have ho : CHUNK_OVERLAP < CHUNK_SIZE := by decide
      have h0 : 0 < t.length := by
        have : (0 : Nat) < CHUNK_SIZE := by decide
        omega
      have hf : t.length ≤ 0 + (t.length + 1) * (CHUNK_SIZE - CHUNK_OVERLAP) := by
        have h1 : 1 ≤ CHUNK_SIZE - CHUNK_OVERLAP := by decide
        have := Nat.mul_le_mul_left (t.length + 1) h1
        simp only [Nat.mul_one] at this
        omega
      obtain ⟨L, hL, hne, -⟩ :=
        chunkLoop_spec t CHUNK_SIZE CHUNK_OVERLAP ho (t.length + 1) 0 h0 hf
      exact ⟨L, hL, hne⟩
  obtain ⟨L, hL, hne⟩ := hex
  constructor
  · rw [hL, chunk_text_total, hL]
    rfl
  · rw [chunk_text_total, hL]
    exact hne

/-- Route /load_video of main.py. -/
def load_video (env : ChatEnv) (tenv : TEnv) (σ : Sessions) (freshId : Nat)
    (url : List Char) : Except Nat LoadResp × Sessions :=
  match get_youtube_video_id url with
  | none => (.error 400, σ)
  | some vid =>
    if vid.isEmpty then (.error 400, σ)
    else
      match get_youtube_transcript tenv (some vid) with
      | .error _ => (.error 500, σ)
      | .ok none => (.ok (.unavailable vid), σ)
      | .ok (some transcript) =>
        if transcript.isEmpty then (.ok (.unavailable vid), σ)
        else
          let chunks := chunk_text_total transcript
          if chunks.isEmpty then (.error 500, σ)
          else
            let newS : Session :=
              { index := chunks.map env.embed
                id2chunk := chunks
                history := []
                meta := { video_id := vid, n_chunks := chunks.length } }
            (.ok (.loaded freshId chunks.length), Function.update σ freshId (some newS))

/-- History truncation of /chat: append, then keep the last 40 turns
when the bound is exceeded. -/
def boundHistory (h : List (List Char × List Char)) : List (List Char × List Char) :=
  if 40 < h.length then pyTakeLast 40 h else h

/-- One formatted turn of the conversation history. -/
def fmtTurn (qa : List Char × List Char) : List Char :=
  "User: ".data ++ qa.1 ++ "\nAssistant: ".data ++ qa.2

/-- history_text of /chat: the last 6 turns, formatted and joined with
newlines; empty when the history is empty. -/
def historyTextOf (h : List (List Char × List Char)) : List Char :=
  if h.isEmpty then []
  else List.intercalate ['\n'] ((pyTakeLast 6 h).map fmtTurn)

/-- Prompt assembled by /chat. -/
def promptOf (context historyText query : List Char) : List Char :=
  "You are a helpful assistant answering questions about a YouTube video transcript.\n".data
    ++ "Always answer in clear English, even if the transcript is in another language.\n".data
    ++ "If the answer is not explicitly in the provided excerpts, try to answer based on related information in them.\n".data
    ++ "Do not simply say you don\x27t know unless there is no relevant clue at all.\n\n".data
    ++ "Transcript excerpts:\n".data ++ context ++ "\n\n".data
    ++ "Conversation history:\n".data ++ historyText ++ "\n\n".data
    ++ "User: ".data ++ query ++ "\nAssistant:".data

/-- Route /chat of main.py. -/
def chat (env : ChatEnv) (σ : Sessions) (sid : Nat) (raw : List Char) :
    Except Nat ChatResp × Sessions :=
  match σ sid with
  | none => (.error 404, σ)
  | some s =>
    let query := pyStrip raw
    if query.isEmpty then (.error 400, σ)
    else
      let retrieved := retrieveFromIndex s.index s.id2chunk (env.embed query)
      let context := List.intercalate ("\n\n---\n\n".data) retrieved
      let prompt := promptOf context (historyTextOf s.history) query
      match env.llm prompt with
      | .error _ => (.error 500, σ)
      | .ok rawText =>
        let answer := pyStrip rawText
        (.ok ⟨env.fmt answer, retrieved.length⟩,
          Function.update σ sid
            (some { s with history := boundHistory (s.history ++ [(query, answer)]) }))

/-- One recorded /chat invocation. -/
structure ChatCall where
  env : ChatEnv
  sid : Nat
  raw : List Char

/-- Session store after a sequence of /chat calls. -/
def runChats (σ : Sessions) : List ChatCall → Sessions
  | [] => σ
  | c :: cs => runChats (chat c.env σ c.sid c.raw).2 cs

/-- A lookup in a list-modelled dict succeeds exactly on the keys
0 .. length - 1. -/
theorem get?_isSome_iff (l : List α) (n : Nat) :
    (l.get? n).isSome ↔ n < l.length := by
  induction l generalizing n with
  | nil => cases n <;> simp [List.get?]
  | cons x xs ih =>
    cases n with
    | zero => simp [List.get?]
    | succ n =>
      simp only [List.get?, List.length_cons]
      rw [ih]
      omega

/-- The truncated history never exceeds 40 entries. -/
theorem boundHistory_le (h : List (List Char × List Char)) :
    (boundHistory h).length ≤ 40 := by
  unfold boundHistory
  by_cases hl : 40 < h.length
  · rw [if_pos hl, pyTakeLast, List.length_drop]
    omega
  · rw [if_neg hl]
    omega

/-- Route /chat either leaves the store untouched or updates exactly the
addressed session, changing only its history field by one bounded
append. -/
theorem chat_sessions_cases (env : ChatEnv) (σ : Sessions) (sid : Nat) (raw : List Char) :
    (chat env σ sid raw).2 = σ ∨
    ∃ s sess, σ sid = some s ∧ sess.index = s.index ∧ sess.id2chunk = s.id2chunk ∧
      sess.meta = s.meta ∧ (∃ qa, sess.history = boundHistory (s.history ++ [qa])) ∧
      (chat env σ sid raw).2 = Function.update σ sid (some sess) := by
  unfold chat
  cases hσ : σ sid with
  | none => exact Or.inl rfl
  | some s =>
    simp only
    cases hq : (pyStrip raw).isEmpty with
    | true => exact Or.inl rfl
    | false =>
      simp only [Bool.false_eq_true, if_false]
      cases hl : env.llm (promptOf
          (List.intercalate ("\n\n---\n\n".data)
            (retrieveFromIndex s.index s.id2chunk (env.embed (pyStrip raw))))
          (historyTextOf s.history) (pyStrip raw)) with
      | error e => exact Or.inl rfl
      | ok t =>
        exact Or.inr ⟨s,
          { s with history := boundHistory (s.history ++ [(pyStrip raw, pyStrip t)]) },
          rfl, rfl, rfl, rfl, ⟨(pyStrip raw, pyStrip t), rfl⟩, rfl⟩

/-- Route /load_video either leaves the store untouched or writes exactly one
session, with an empty history, under the fresh key. -/
theorem load_sessions_cases (env : ChatEnv) (tenv : TEnv) (σ : Sessions)
    (freshId : Nat) (url : List Char) :
    (load_video env tenv σ freshId url).2 = σ ∨
    ∃ sess : Session, sess.history = [] ∧
      (load_video env tenv σ freshId url).2 = Function.update σ freshId (some sess) := by
  unfold load_video
  cases hv : get_youtube_video_id url with
  | none => exact Or.inl rfl
  | some vid =>
    simp only
    cases hve : vid.isEmpty with
    | true => exact Or.inl rfl
    | false =>
      simp only [Bool.false_eq_true, if_false]
      cases ht : get_youtube_transcript tenv (some vid) with
      | error e => exact Or.inl rfl
      | ok r =>
        cases r with
        | none => exact Or.inl rfl
        | some transcript =>
          simp only
          cases hte : transcript.isEmpty with
          | true => exact Or.inl rfl
          | false =>
            simp only [Bool.false_eq_true, if_false]
            cases hce : (chunk_text_total transcript).isEmpty with
            | true => exact Or.inl rfl
            | false =>
              simp only [Bool.false_eq_true, if_false]
              exact Or.inr ⟨_, rfl, rfl⟩

/-- One /chat call preserves the 40-entry history bound across the whole
store. -/
theorem chat_history_le (env : ChatEnv) (σ : Sessions) (sid : Nat) (raw : List Char)
    (hinv : ∀ s sess, σ s = some sess → sess.history.length ≤ 40) :
    ∀ s sess, (chat env σ sid raw).2 s = some sess → sess.history.length ≤ 40 := by
  rcases chat_sessions_cases env σ sid raw with h | ⟨s0, sess0, hσ, -, -, -, ⟨qa, hh⟩, heq⟩
  · rw [h]
    exact hinv
  · intro s sess hs
    rw [heq] at hs
    by_cases hss : s = sid
    · subst hss
      rw [Function.update_same] at hs
      injection hs with hs
      subst hs
      rw [hh]
      exact boundHistory_le _
    · rw [Function.update_noteq hss] at hs
      exact hinv s sess hs

/-- Claim C3: the conversational loop is bounded.  Starting from any
store whose histories hold at most 40 turns (in particular a fresh one),
after any sequence of /chat calls every session's history still holds at
most 40 (question, answer) pairs; and the history text interpolated into
the LLM prompt is built from a suffix of the addressed session's history
of at most 6 turns. -/
theorem chat_history_bounded (σ : Sessions)
    (hinv : ∀ s sess, σ s = some sess → sess.history.length ≤ 40)
    (calls : List ChatCall) :
    (∀ s sess, runChats σ calls s = some sess → sess.history.length ≤ 40) ∧
    ∀ sess : Session, ∃ turns, List.IsSuffix turns sess.history ∧ turns.length ≤ 6 ∧
      historyTextOf sess.history = List.intercalate ['\n'] (turns.map fmtTurn) := by
  constructor
  · induction calls generalizing σ with
    | nil => exact hinv
    | cons c cs ih => exact ih _ (chat_history_le c.env σ c.sid c.raw hinv)
  · intro sess
    refine ⟨pyTakeLast 6 sess.history, List.drop_suffix _ _, ?_, ?_⟩
    · rw [pyTakeLast, List.length_drop]
      omega
    · cases hh : sess.history with
      | nil => rfl
      | cons a t => rfl

/-- Witness for C3: instantiated at the empty store, no calls, and a
fresh session. -/
theorem chat_history_bounded_witness :
    ∃ turns,
      List.IsSuffix turns (Session.history ⟨[], [], [], ⟨[], 0⟩⟩) ∧ turns.length ≤ 6 ∧
      historyTextOf (Session.history ⟨[], [], [], ⟨[], 0⟩⟩) =
        List.intercalate ['\n'] (turns.map fmtTurn) :=
  (chat_history_bounded (fun _ => none)
    (fun _ _ h => Option.noConfusion h) []).2 ⟨[], [], [], ⟨[], 0⟩⟩

/-- Claim C9: /chat is atomic on error.  Whenever the route answers with
an HTTP error (404 unknown session, 400 blank query, 500 LLM failure),
the session store is exactly what it was before the call; and on success
the store changes only by appending the (stripped query, stripped answer)
pair to the addressed session's history, with the 40-entry truncation. -/
theorem chat_error_atomic (env : ChatEnv) (σ : Sessions) (sid : Nat) (raw : List Char) :
    (∀ e, (chat env σ sid raw).1 = .error e → (chat env σ sid raw).2 = σ) ∧
    (∀ r, (chat env σ sid raw).1 = .ok r →
      ∃ s answer, σ sid = some s ∧
        (chat env σ sid raw).2 = Function.update σ sid
          (some { s with history := boundHistory (s.history ++ [(pyStrip raw, answer)]) })) := by
  unfold chat
  cases hσ : σ sid with
  | none =>
    refine ⟨fun e h => rfl, fun r h => ?_⟩
    simp at h
  | some s =>
    simp only
    cases hq : (pyStrip raw).isEmpty with
    | true =>
      refine ⟨fun e h => rfl, fun r h => ?_⟩
      simp at h
    | false =>
      simp only [Bool.false_eq_true, if_false]
      cases hl : env.llm (promptOf
          (List.intercalate ("\n\n---\n\n".data)
            (retrieveFromIndex s.index s.id2chunk (env.embed (pyStrip raw))))
          (historyTextOf s.history) (pyStrip raw)) with
      | error e' =>
        refine ⟨fun e h => rfl, fun r h => ?_⟩
        simp at h
      | ok t =>
        refine ⟨fun e h => ?_, fun r h => ⟨s, pyStrip t, rfl, rfl⟩⟩
        simp at h

/-- Witness for C9: a call addressed at an unknown session leaves the
(empty) store unchanged. -/
theorem chat_error_atomic_witness :
    (chat ⟨fun _ => [1], fun _ => .ok ("ok".data), fun t => t⟩
      (fun _ => none) 0 ['q']).2 = (fun _ => none : Sessions) :=
  (chat_error_atomic ⟨fun _ => [1], fun _ => .ok ("ok".data), fun t => t⟩
    (fun _ => none) 0 ['q']).1 404 rfl

/-- Claim C6: session state is a single in-process mapping with no
eviction.  A /load_video call changes no session other than the fresh
key, and at that key either stores nothing or one new session with empty
history; a /chat call changes no session other than the addressed one,
and there only the history field; and neither route ever removes an
existing session. -/
theorem session_store_frame (env : ChatEnv) (tenv : TEnv) (σ : Sessions)
    (freshId sid : Nat) (url raw : List Char) (hfresh : σ freshId = none) :
    (∀ s, s ≠ freshId → (load_video env tenv σ freshId url).2 s = σ s) ∧
    ((load_video env tenv σ freshId url).2 freshId = none ∨
      ∃ sess, (load_video env tenv σ freshId url).2 freshId = some sess ∧
        sess.history = []) ∧
    (∀ s, s ≠ sid → (chat env σ sid raw).2 s = σ s) ∧
    (∀ sess₀, σ sid = some sess₀ → ∀ sess, (chat env σ sid raw).2 sid = some sess →
      sess.index = sess₀.index ∧ sess.id2chunk = sess₀.id2chunk ∧
      sess.meta = sess₀.meta) ∧
    (∀ s sess, σ s = some sess →
      ∃ sess', (load_video env tenv σ freshId url).2 s = some sess') ∧
    (∀ s sess, σ s = some sess → ∃ sess', (chat env σ sid raw).2 s = some sess') := by
  refine ⟨?_, ?_, ?_, ?_, ?_, ?_⟩
  · intro s hs
    rcases load_sessions_cases env tenv σ freshId url with h | ⟨sess, -, heq⟩
    · rw [h]
    · rw [heq, Function.update_noteq hs]
  · rcases load_sessions_cases env tenv σ freshId url with h | ⟨sess, hh, heq⟩
    · exact Or.inl (by rw [h, hfresh])
    · exact Or.inr ⟨sess, by rw [heq, Function.update_same], hh⟩
  · intro s hs
    rcases chat_sessions_cases env σ sid raw with h | ⟨s0, sess0, -, -, -, -, -, heq⟩
    · rw [h]
    · rw [heq, Function.update_noteq hs]
  · intro sess₀ hσ₀ sess hs
    rcases chat_sessions_cases env σ sid raw with h | ⟨s0, sess0, hσ, hidx, hid2, hmeta, -, heq⟩
    · rw [h, hσ₀] at hs
      injection hs with hs
      subst hs
      exact ⟨rfl, rfl, rfl⟩
    · rw [hσ₀] at hσ
      injection hσ with hσ
      subst hσ
      rw [heq, Function.update_same] at hs
      injection hs with hs
      subst hs
      exact ⟨hidx, hid2, hmeta⟩
  · intro s sess hσs
    have hs : s ≠ freshId := by
      intro h
      rw [h, hfresh] at hσs
      exact Option.noConfusion hσs
    rcases load_sessions_cases env tenv σ freshId url with h | ⟨sess', -, heq⟩
    · exact ⟨sess, by rw [h]; exact hσs⟩
    · exact ⟨sess, by rw [heq, Function.update_noteq hs]; exact hσs⟩
  · intro s sess hσs
    rcases chat_sessions_cases env σ sid raw with h | ⟨s0, sess0, -, -, -, -, -, heq⟩
    · exact ⟨sess, by rw [h]; exact hσs⟩
    · by_cases hss : s = sid
      · subst hss
        exact ⟨sess0, by rw [heq, Function.update_same]⟩
      · exact ⟨sess, by rw [heq, Function.update_noteq hss]; exact hσs⟩

/-- Witness for C6: applied to the empty store with fresh key 0; the
load route leaves key 1 untouched. -/
theorem session_store_frame_witness :
    (load_video ⟨fun _ => [1], fun _ => .ok ("ok".data), fun t => t⟩ envAllFail
      (fun _ => none) 0 []).2 1 = (fun _ => none : Sessions) 1 :=
  (session_store_frame ⟨fun _ => [1], fun _ => .ok ("ok".data), fun t => t⟩ envAllFail
    (fun _ => none) 0 0 [] [] rfl).1 1 (by decide)

/-- Consistency invariant of a session: the reported chunk count, the
id2chunk dictionary and the FAISS index agree, and the dictionary keys
are exactly 0 .. n_chunks - 1. -/
def SessionInv (s : Session) : Prop :=
  s.meta.n_chunks = s.id2chunk.length ∧ s.id2chunk.length = s.index.length ∧
  ∀ i : Nat, (s.id2chunk.get? i).isSome ↔ i < s.meta.n_chunks

/-- Claim C10: every session created by /load_video satisfies, from
creation onward, the consistency invariant: meta n_chunks equals the
id2chunk entry count, which equals the number of indexed vectors, with
keys exactly 0 .. n_chunks - 1; the value returned to the client equals
that count; the chunk list is non-empty whenever a transcript was
obtained; every non-negative search id resolves to a stored chunk; and
/chat preserves the invariant. -/
theorem load_session_invariant (env : ChatEnv) (tenv : TEnv) (σ : Sessions)
    (freshId sid : Nat) (url raw : List Char) :
    (∀ sid' n σ', load_video env tenv σ freshId url = (.ok (.loaded sid' n), σ') →
      ∃ sess, σ' sid' = some sess ∧ SessionInv sess ∧ n = sess.meta.n_chunks ∧
        sess.id2chunk ≠ [] ∧
        ∀ qv (id : Int), id ∈ faissSearchIds sess.index qv TOP_K → 0 ≤ id →
          (sess.id2chunk.get? id.toNat).isSome) ∧
    (∀ sess₀, σ sid = some sess₀ → SessionInv sess₀ →
      ∀ sess, (chat env σ sid raw).2 sid = some sess → SessionInv sess) := by
  constructor
  · unfold load_video
    cases hv : get_youtube_video_id url with
    | none =>
      intro sid' n σ' h
      simp at h
    | some vid =>
      simp only
      cases hve : vid.isEmpty with
      | true =>
        intro sid' n σ' h
        simp at h
      | false =>
        simp only [Bool.false_eq_true, if_false]
        cases ht : get_youtube_transcript tenv (some vid) with
        | error e =>
          intro sid' n σ' h
          simp at h
        | ok r =>
          cases r with
          | none =>
            intro sid' n σ' h
            simp at h
          | some transcript =>
            simp only
            cases hte : transcript.isEmpty with
            | true =>
              intro sid' n σ' h
              simp at h
            | false =>
              simp only [Bool.false_eq_true, if_false]
              cases hce : (chunk_text_total transcript).isEmpty with
              | true =>
                intro sid' n σ' h
                simp at h
              | false =>
                simp only [Bool.false_eq_true, if_false]
                intro sid' n σ' h
                simp only [Prod.mk.injEq, Except.ok.injEq, LoadResp.loaded.injEq] at h
                obtain ⟨⟨h1, h2⟩, h3⟩ := h
                subst h1
                subst h2
                subst h3
                refine ⟨_, Function.update_same _ _ _, ⟨rfl, ?_, ?_⟩, rfl, ?_, ?_⟩
                · exact (List.length_map _ _).symm
                · intro i
                  exact get?_isSome_iff _ i
                · intro hc
                  have hc' : chunk_text_total transcript = [] := hc
                  rw [hc'] at hce
                  simp at hce
                · intro qv id hid hpos
                  have := faissSearchIds_mem_range
                    ((chunk_text_total transcript).map env.embed) qv TOP_K id hid hpos
                  rw [List.length_map] at this
                  exact (get?_isSome_iff _ _).mpr this
  · intro sess₀ hσ₀ hInv sess hs
    rcases chat_sessions_cases env σ sid raw with h | ⟨s0, sess0, hσ, hidx, hid2, hmeta, -, heq⟩
    · rw [h, hσ₀] at hs
      injection hs with hs
      subst hs
      exact hInv
    · rw [hσ₀] at hσ
      injection hσ with hσ
      subst hσ
      rw [heq, Function.update_same] at hs
      injection hs with hs
      subst hs
      unfold SessionInv at hInv ⊢
      rw [hidx, hid2, hmeta]
      exact hInv

/-- Route environment used by concrete witnesses. -/
def envW : ChatEnv := ⟨fun _ => [1], fun _ => .ok ("ok".data), fun t => t⟩

/-- Transcript environment with a cached transcript present. -/
def envCacheHit : TEnv :=
  { envAllFail with cacheExists := .ok true, cacheDownload := .ok ("hello".data) }

/-- Concrete load URL used by witnesses. -/
def urlW : List Char := "https://youtu.be/dQw4w9WgXcQ".data

/-- The session /load_video builds for urlW under envW and envCacheHit. -/
def sessW : Session :=
  { index := [[1]]
    id2chunk := ["hello".data]
    history := []
    meta := { video_id := "dQw4w9WgXcQ".data, n_chunks := 1 } }

/-- Witness for C10: the session created by a concrete successful load
satisfies the invariant. -/
theorem load_session_invariant_witness :
    ∃ sess, Function.update (fun _ => none : Sessions) 0 (some sessW) 0 = some sess ∧
      SessionInv sess ∧ 1 = sess.meta.n_chunks ∧ sess.id2chunk ≠ [] ∧
      ∀ qv (id : Int), id ∈ faissSearchIds sess.index qv TOP_K → 0 ≤ id →
        (sess.id2chunk.get? id.toNat).isSome :=
  (load_session_invariant envW envCacheHit (fun _ => none) 0 0 urlW []).1 0 1
    (Function.update (fun _ => none : Sessions) 0 (some sessW)) (by rfl)

end YtChat
